import Mathlib

/-!
Verification of the battery health computation pipeline
(`backend/health_processing.py`, `backend/upload_handler.py`).

The numeric code is embedded over `ℚ`: `numpy`/`scipy` array computations
(linear interpolation, ordinary least squares, clip, mean) are translated
into exact rational arithmetic on lists, which is the idealisation the
specification describes.
-/

namespace BatteryHealth

/-- `max` on `ℚ`, written out so that it evaluates by kernel reduction. -/
def rmax (a b : ℚ) : ℚ := if a ≤ b then b else a

/-- `min` on `ℚ`, written out so that it evaluates by kernel reduction. -/
def rmin (a b : ℚ) : ℚ := if a ≤ b then a else b

theorem rmax_eq_max (a b : ℚ) : rmax a b = max a b := by
  simp [rmax, max_def]

theorem rmin_eq_min (a b : ℚ) : rmin a b = min a b := by
  simp [rmin, min_def]

/-- `np.clip(x, lo, hi)`: equivalent to `min(hi, max(x, lo))`. -/
def clip (x lo hi : ℚ) : ℚ := rmin (rmax x lo) hi

theorem clip_eq (x lo hi : ℚ) : clip x lo hi = min (max x lo) hi := by
  rw [clip, rmax_eq_max, rmin_eq_min]

/-- Value at `v` of the straight line through calibration points `p` and `q`
(each a `(voltage, soc)` pair). -/
def segEval (p q : ℚ × ℚ) (v : ℚ) : ℚ :=
  p.2 + (q.2 - p.2) * (v - p.1) / (q.1 - p.1)

/-- `scipy.interpolate.interp1d(xs, ys, kind='linear', fill_value='extrapolate')`
applied to knot list `l` (sorted by first component): piecewise-linear
interpolation between bracketing knots, extrapolating with the slope of the
nearest boundary segment outside the knot range. -/
def interpPL : List (ℚ × ℚ) → ℚ → ℚ
  | [], _ => 0
  | [p], _ => p.2
  | [p, q], v => segEval p q v
  | p :: q :: r :: rest, v =>
    if v ≤ q.1 then segEval p q v else interpPL (q :: r :: rest) v

/-- `BatteryHealthProcessor.VOLTAGE_SOC_TABLE`, already sorted ascending by
voltage (as `_build_soc_interpolator` sorts it). -/
def VOLTAGE_SOC_TABLE : List (ℚ × ℚ) :=
  [(2.75, 0), (3, 5), (3.3, 10), (3.5, 20), (3.6, 30),
   (3.65, 40), (3.7, 50), (3.75, 60), (3.8, 70), (3.9, 80),
   (4, 90), (4.1, 95), (4.2, 100)]

/-- `BatteryHealthProcessor.estimate_soc`: interpolate/extrapolate the
calibration table at `voltage`, then `np.clip(soc, 0, 100)`. -/
def estimate_soc (voltage : ℚ) : ℚ :=
  clip (interpPL VOLTAGE_SOC_TABLE voltage) 0 100

/-- The list of adjacent knot pairs (the linear segments) of a knot list. -/
def adjPairs : List (ℚ × ℚ) → List ((ℚ × ℚ) × (ℚ × ℚ))
  | [] => []
  | [_] => []
  | p :: q :: rest => (p, q) :: adjPairs (q :: rest)

theorem segEval_left (p q : ℚ × ℚ) : segEval p q p.1 = p.2 := by
  simp [segEval]

theorem segEval_right (p q : ℚ × ℚ) (h : p.1 ≠ q.1) : segEval p q q.1 = q.2 := by
  have hne : q.1 - p.1 ≠ 0 := sub_ne_zero_of_ne (Ne.symm h)
  field_simp [segEval]

theorem segEval_mono (p q : ℚ × ℚ) (hx : p.1 < q.1) (hy : p.2 ≤ q.2) :
    Monotone (segEval p q) := by
  intro v w hvw
  unfold segEval
  have hd : (0 : ℚ) < q.1 - p.1 := by linarith
  have h1 : (q.2 - p.2) * (v - p.1) ≤ (q.2 - p.2) * (w - p.1) :=
    mul_le_mul_of_nonneg_left (by linarith) (by linarith)
  have h2 : (q.2 - p.2) * (v - p.1) / (q.1 - p.1) ≤ (q.2 - p.2) * (w - p.1) / (q.1 - p.1) :=
    (div_le_div_iff_of_pos_right hd).mpr h1
  linarith

theorem interpPL_head (p : ℚ × ℚ) (rest : List (ℚ × ℚ))
    (h : (p :: rest).Chain' (fun a b => a.1 < b.1)) :
    interpPL (p :: rest) p.1 = p.2 := by
  match rest with
  | [] => rfl
  | [q] =>
    have : p.1 < q.1 := (List.chain'_cons.mp h).1
    exact segEval_left p q
  | q :: r :: rest =>
    have hpq : p.1 < q.1 := (List.chain'_cons.mp h).1
    show (if p.1 ≤ q.1 then segEval p q p.1 else _) = p.2
    rw [if_pos (le_of_lt hpq)]
    exact segEval_left p q

theorem interpPL_monotone :
    ∀ (l : List (ℚ × ℚ)), l.Chain' (fun a b => a.1 < b.1) →
      l.Chain' (fun a b => a.2 ≤ b.2) → Monotone (interpPL l)
  | [], _, _ => monotone_const
  | [_], _, _ => monotone_const
  | [p, q], hx, hy =>
    segEval_mono p q (List.chain'_cons.mp hx).1 (List.chain'_cons.mp hy).1
  | p :: q :: r :: rest, hx, hy => by
    obtain ⟨hpq, hx'⟩ := List.chain'_cons.mp hx
    obtain ⟨hpq2, hy'⟩ := List.chain'_cons.mp hy
    have ihmono : Monotone (interpPL (q :: r :: rest)) :=
      interpPL_monotone (q :: r :: rest) hx' hy'
    intro v w hvw
    show (if v ≤ q.1 then segEval p q v else interpPL (q :: r :: rest) v) ≤
      (if w ≤ q.1 then segEval p q w else interpPL (q :: r :: rest) w)
    by_cases hw : w ≤ q.1
    · rw [if_pos (le_trans hvw hw), if_pos hw]
      exact segEval_mono p q hpq hpq2 hvw
    · rw [if_neg hw]
      by_cases hv : v ≤ q.1
      · rw [if_pos hv]
        have h1 : segEval p q v ≤ segEval p q q.1 := segEval_mono p q hpq hpq2 hv
        have h2 : segEval p q q.1 = q.2 := segEval_right p q (ne_of_lt hpq)
        have h3 : interpPL (q :: r :: rest) q.1 = q.2 := interpPL_head q (r :: rest) hx'
        have h4 : interpPL (q :: r :: rest) q.1 ≤ interpPL (q :: r :: rest) w :=
          ihmono (le_of_not_le hw)
        linarith
      · rw [if_neg hv]
        exact ihmono hvw

theorem chain'_fst_lt_of_mem :
    ∀ (l : List (ℚ × ℚ)) (q : ℚ × ℚ), (q :: l).Chain' (fun a b => a.1 < b.1) →
      ∀ x ∈ l, q.1 < x.1
  | [], _, _, x, hx => by simp at hx
  | r :: rest, q, h, x, hx => by
    obtain ⟨hqr, h'⟩ := List.chain'_cons.mp h
    rcases List.mem_cons.mp hx with h1 | h1
    · rw [h1]; exact hqr
    · exact lt_trans hqr (chain'_fst_lt_of_mem rest r h' x h1)

theorem adjPairs_mem :
    ∀ (l : List (ℚ × ℚ)) (pq : (ℚ × ℚ) × (ℚ × ℚ)), pq ∈ adjPairs l →
      pq.1 ∈ l ∧ pq.2 ∈ l
  | [], _, h => by simp [adjPairs] at h
  | [_], _, h => by simp [adjPairs] at h
  | p :: q :: rest, pq, h => by
    rw [show adjPairs (p :: q :: rest) = (p, q) :: adjPairs (q :: rest) from rfl] at h
    rcases List.mem_cons.mp h with h | h
    · subst h; exact ⟨List.mem_cons_self _ _, List.mem_cons_of_mem _ (List.mem_cons_self _ _)⟩
    · obtain ⟨h1, h2⟩ := adjPairs_mem (q :: rest) pq h
      exact ⟨List.mem_cons_of_mem _ h1, List.mem_cons_of_mem _ h2⟩

theorem interpPL_bracket :
    ∀ (l : List (ℚ × ℚ)), l.Chain' (fun a b => a.1 < b.1) →
      ∀ pq ∈ adjPairs l, ∀ v, pq.1.1 ≤ v → v ≤ pq.2.1 →
        interpPL l v = segEval pq.1 pq.2 v
  | [], _, pq, h, _, _, _ => by simp [adjPairs] at h
  | [_], _, pq, h, _, _, _ => by simp [adjPairs] at h
  | [p, q], hx, pq, h, v, hl, hr => by
    have : pq = (p, q) := by simpa [adjPairs] using h
    subst this
    rfl
  | p :: q :: r :: rest, hx, pq, h, v, hl, hr => by
    obtain ⟨hpq, hx'⟩ := List.chain'_cons.mp hx
    have hsorted : ∀ x ∈ (r :: rest), q.1 < x.1 :=
      chain'_fst_lt_of_mem (r :: rest) q hx'
    rw [show adjPairs (p :: q :: r :: rest) = (p, q) :: adjPairs (q :: r :: rest) from rfl] at h
    rcases List.mem_cons.mp h with hh | hh
    · subst hh
      show (if v ≤ q.1 then segEval p q v else _) = segEval p q v
      rw [if_pos hr]
    · have hmem := adjPairs_mem (q :: r :: rest) pq hh
      have hq1 : q.1 ≤ pq.1.1 := by
        rcases List.mem_cons.mp hmem.1 with h1 | h1
        · rw [h1]
        · exact le_of_lt (hsorted _ h1)
      show (if v ≤ q.1 then segEval p q v else interpPL (q :: r :: rest) v) = segEval pq.1 pq.2 v
      by_cases hv : v ≤ q.1
      · -- v is pinned to the shared knot q.1; both segments give q.2 there
        rw [if_pos hv]
        have hveq : v = q.1 := le_antisymm hv (le_trans hq1 hl)
        have hfst : pq.1 = q := by
          rcases List.mem_cons.mp hmem.1 with h1 | h1
          · exact h1
          · exact absurd (hsorted _ h1) (by rw [hveq] at hl; exact not_lt.mpr hl)
        have hqr : q.1 < r.1 := (List.chain'_cons.mp hx').1
        have hpqr : pq = (q, r) := by
          rw [show adjPairs (q :: r :: rest) = (q, r) :: adjPairs (r :: rest) from rfl] at hh
          rcases List.mem_cons.mp hh with h2 | h2
          · exact h2
          · exact absurd ((adjPairs_mem (r :: rest) pq h2).1) (by
              intro hmm
              have := hsorted _ hmm
              rw [hfst] at this
              exact lt_irrefl _ this)
        rw [hpqr, hveq, segEval_right p q (ne_of_lt hpq), segEval_left q r]
      · rw [if_neg hv]
        exact interpPL_bracket (q :: r :: rest) hx' pq hh v hl hr

theorem adjPairs_rel (R : ℚ × ℚ → ℚ × ℚ → Prop) :
    ∀ (l : List (ℚ × ℚ)), l.Chain' R → ∀ pq ∈ adjPairs l, R pq.1 pq.2
  | [], _, pq, h => by simp [adjPairs] at h
  | [_], _, pq, h => by simp [adjPairs] at h
  | p :: q :: rest, hc, pq, h => by
    obtain ⟨hpq, hc'⟩ := List.chain'_cons.mp hc
    rw [show adjPairs (p :: q :: rest) = (p, q) :: adjPairs (q :: rest) from rfl] at h
    rcases List.mem_cons.mp h with hh | hh
    · subst hh; exact hpq
    · exact adjPairs_rel R (q :: rest) hc' pq hh

theorem table_chain_fst : VOLTAGE_SOC_TABLE.Chain' (fun a b => a.1 < b.1) := by
  norm_num [VOLTAGE_SOC_TABLE, List.chain'_cons]

theorem table_chain_snd : VOLTAGE_SOC_TABLE.Chain' (fun a b => a.2 ≤ b.2) := by
  norm_num [VOLTAGE_SOC_TABLE, List.chain'_cons]

theorem table_snd_bounds : ∀ x ∈ VOLTAGE_SOC_TABLE, 0 ≤ x.2 ∧ x.2 ≤ 100 := by
  intro x hx
  fin_cases hx <;> norm_num

theorem clip_id (x : ℚ) (h0 : 0 ≤ x) (h1 : x ≤ 100) : clip x 0 100 = x := by
  unfold clip rmin rmax
  split_ifs <;> linarith

theorem clip_bounds (x lo hi : ℚ) (h : lo ≤ hi) :
    lo ≤ clip x lo hi ∧ clip x lo hi ≤ hi := by
  unfold clip rmin rmax
  split_ifs <;> exact ⟨by linarith, by linarith⟩

theorem clip_monotone (lo hi : ℚ) : Monotone (fun x => clip x lo hi) := by
  intro a b hab
  simp only [clip, rmin, rmax]
  split_ifs <;> linarith

/-- One step of the interpolation walk: a leading knot left of the query can
be dropped as long as at least two knots remain. -/
theorem interpPL_step (a b : ℚ × ℚ) (l : List (ℚ × ℚ)) (v : ℚ) (hne : l ≠ [])
    (h : ¬ v ≤ b.1) : interpPL (a :: b :: l) v = interpPL (b :: l) v := by
  match l, hne with
  | c :: l', _ =>
    show (if v ≤ b.1 then segEval a b v else interpPL (b :: c :: l') v) = _
    rw [if_neg h]

/-- Locate the segment of a piecewise-linear interpolant: skipping a prefix
`l` of knots that all lie strictly left of `v` lands on segment `(p, q)`
whenever `v ≤ q.1`. -/
theorem interpPL_locate (v : ℚ) :
    ∀ (l : List (ℚ × ℚ)) (p q : ℚ × ℚ) (rest : List (ℚ × ℚ)),
      (∀ x ∈ l, ¬ v ≤ x.1) → ¬ v ≤ p.1 → v ≤ q.1 →
        interpPL (l ++ (p :: q :: rest)) v = segEval p q v
  | [], p, q, rest, _, _, hq => by
    match rest with
    | [] => rfl
    | r :: rest' =>
      show (if v ≤ q.1 then segEval p q v else _) = segEval p q v
      rw [if_pos hq]
  | a :: l', p, q, rest, hskip, hp, hq => by
    have ih := interpPL_locate v l' p q rest
      (fun x hx => hskip x (List.mem_cons_of_mem _ hx)) hp hq
    cases l' with
    | nil =>
      simp only [List.cons_append, List.nil_append] at ih ⊢
      rw [interpPL_step a p (q :: rest) v (by simp) hp]
      exact ih
    | cons b l'' =>
      simp only [List.cons_append, List.nil_append] at ih ⊢
      rw [interpPL_step a b (l'' ++ p :: q :: rest) v (by simp)
        (hskip b (List.mem_cons_of_mem _ (List.mem_cons_self _ _)))]
      exact ih

/-- Skipping a prefix of knots that all lie strictly left of `v` lands on the
final segment `(p, q)`, which extrapolates for `v` beyond `q.1` as well. -/
theorem interpPL_skip (v : ℚ) :
    ∀ (l : List (ℚ × ℚ)) (p q : ℚ × ℚ),
      (∀ x ∈ l ++ [p], ¬ v ≤ x.1) → interpPL (l ++ [p, q]) v = segEval p q v
  | [], p, q, _ => rfl
  | a :: l', p, q, hskip => by
    have ih := interpPL_skip v l' p q (fun x hx => hskip x (List.mem_cons_of_mem _ hx))
    cases l' with
    | nil =>
      simp only [List.cons_append, List.nil_append] at ih ⊢
      rw [interpPL_step a p [q] v (by simp) (hskip p (by simp))]
      exact ih
    | cons b l'' =>
      simp only [List.cons_append, List.nil_append] at ih ⊢
      rw [interpPL_step a b (l'' ++ [p, q]) v (by simp)
        (hskip b (List.mem_cons_of_mem _ (List.mem_cons_self _ _)))]
      exact ih

theorem interpPL_table_low (v : ℚ) (h : v ≤ 3) :
    interpPL VOLTAGE_SOC_TABLE v = segEval (2.75, 0) (3, 5) v := by
  show (if v ≤ ((3 : ℚ), (5 : ℚ)).1 then segEval (2.75, 0) (3, 5) v else _) =
    segEval (2.75, 0) (3, 5) v
  rw [if_pos h]

theorem interpPL_table_high (v : ℚ) (h : 4.2 ≤ v) :
    interpPL VOLTAGE_SOC_TABLE v = segEval (4.1, 95) (4.2, 100) v := by
  rw [show VOLTAGE_SOC_TABLE =
      [((2.75 : ℚ), (0 : ℚ)), (3, 5), (3.3, 10), (3.5, 20), (3.6, 30),
       (3.65, 40), (3.7, 50), (3.75, 60), (3.8, 70), (3.9, 80), (4, 90)] ++
      [(4.1, 95), (4.2, 100)] from rfl]
  apply interpPL_skip
  intro x hx
  fin_cases hx <;> simp <;> linarith

theorem estimate_soc_monotone : Monotone estimate_soc := fun _ _ hab =>
  clip_monotone 0 100
    (interpPL_monotone VOLTAGE_SOC_TABLE table_chain_fst table_chain_snd hab)

/-- The exact calibration point: 3.7 V is a knot of the table. -/
theorem soc_at_calibration_point : estimate_soc 3.7 = 50 := by
  have h1 : interpPL VOLTAGE_SOC_TABLE 3.7 = segEval (3.65, 40) (3.7, 50) 3.7 := by
    rw [show VOLTAGE_SOC_TABLE =
        [((2.75 : ℚ), (0 : ℚ)), (3, 5), (3.3, 10), (3.5, 20), (3.6, 30)] ++
        ((3.65, 40) :: (3.7, 50) ::
          [(3.75, 60), (3.8, 70), (3.9, 80), (4, 90), (4.1, 95), (4.2, 100)]) from rfl]
    apply interpPL_locate
    · intro x hx; fin_cases hx <;> norm_num
    · norm_num
    · norm_num
  rw [estimate_soc, h1]
  norm_num [segEval, clip, rmin, rmax]

/-- **C1.** For every voltage `v`, `estimate_soc v` lies in `[0, 100]`; between
any two bracketing points of the calibration table it equals their linear
interpolation; at or below the lowest table voltage (resp. at or above the
highest) it equals the linear extension of the boundary segment clamped to
`[0, 100]`; and `estimate_soc 3.7 = 50`, `estimate_soc 2 = 0`,
`estimate_soc 5 = 100`. The embedding is a total function, so no input
raises an error. -/
theorem C1_estimate_soc_interpolation (v : ℚ) :
    (0 ≤ estimate_soc v ∧ estimate_soc v ≤ 100) ∧
    (∀ pq ∈ adjPairs VOLTAGE_SOC_TABLE, pq.1.1 ≤ v → v ≤ pq.2.1 →
        estimate_soc v = segEval pq.1 pq.2 v) ∧
    (v ≤ 2.75 → estimate_soc v = clip (segEval (2.75, 0) (3, 5) v) 0 100) ∧
    (4.2 ≤ v → estimate_soc v = clip (segEval (4.1, 95) (4.2, 100) v) 0 100) ∧
    estimate_soc 3.7 = 50 ∧ estimate_soc 2 = 0 ∧ estimate_soc 5 = 100 := by
  refine ⟨clip_bounds _ 0 100 (by norm_num), ?_, ?_, ?_, ?_, ?_, ?_⟩
  · intro pq hpq hl hr
    have hlt : pq.1.1 < pq.2.1 := adjPairs_rel _ _ table_chain_fst pq hpq
    have hle : pq.1.2 ≤ pq.2.2 := adjPairs_rel _ _ table_chain_snd pq hpq
    have hmem := adjPairs_mem _ pq hpq
    have hb1 := table_snd_bounds _ hmem.1
    have hb2 := table_snd_bounds _ hmem.2
    have hmono := segEval_mono pq.1 pq.2 hlt hle
    have hlow : pq.1.2 ≤ segEval pq.1 pq.2 v := by
      have := hmono hl
      rwa [segEval_left] at this
    have hhigh : segEval pq.1 pq.2 v ≤ pq.2.2 := by
      have := hmono hr
      rwa [segEval_right pq.1 pq.2 (ne_of_lt hlt)] at this
    rw [estimate_soc, interpPL_bracket _ table_chain_fst pq hpq v hl hr]
    exact clip_id _ (le_trans hb1.1 hlow) (le_trans hhigh hb2.2)
  · intro h
    rw [estimate_soc, interpPL_table_low v (by linarith)]
  · intro h
    rw [estimate_soc, interpPL_table_high v h]
  · exact soc_at_calibration_point
  · rw [estimate_soc, interpPL_table_low 2 (by norm_num)]
    norm_num [segEval, clip, rmin, rmax]
  · rw [estimate_soc, interpPL_table_high 5 (by norm_num)]
    norm_num [segEval, clip, rmin, rmax]

/-- Closed-form instances of `C1_estimate_soc_interpolation`, with every
hypothesis discharged at concrete inputs. -/
theorem C1_estimate_soc_interpolation_witness :
    estimate_soc 2.8 = segEval (2.75, 0) (3, 5) 2.8 ∧
    estimate_soc 2.5 = clip (segEval (2.75, 0) (3, 5) 2.5) 0 100 ∧
    estimate_soc 4.5 = clip (segEval (4.1, 95) (4.2, 100) 4.5) 0 100 :=
  ⟨(C1_estimate_soc_interpolation 2.8).2.1 ((2.75, 0), (3, 5))
      (by rw [show adjPairs VOLTAGE_SOC_TABLE = ((2.75, 0), (3, 5)) :: adjPairs
            ((3, 5) :: [(3.3, 10), (3.5, 20), (3.6, 30), (3.65, 40), (3.7, 50), (3.75, 60),
              (3.8, 70), (3.9, 80), (4, 90), (4.1, 95), (4.2, 100)]) from rfl]
          exact List.mem_cons_self _ _) (by norm_num) (by norm_num),
   (C1_estimate_soc_interpolation 2.5).2.2.1 (by norm_num),
   (C1_estimate_soc_interpolation 4.5).2.2.2.1 (by norm_num)⟩

/-- **C2.** Over the calibration range `[2.75, 4.2]`, `estimate_soc` is
non-decreasing: `2.75 ≤ v1 ≤ v2 ≤ 4.2` implies
`estimate_soc v1 ≤ estimate_soc v2`. -/
theorem C2_estimate_soc_nondecreasing (v1 v2 : ℚ)
    (_h1 : 2.75 ≤ v1) (h12 : v1 ≤ v2) (_h2 : v2 ≤ 4.2) :
    estimate_soc v1 ≤ estimate_soc v2 :=
  estimate_soc_monotone h12

/-- Closed-form instance of `C2_estimate_soc_nondecreasing`. -/
theorem C2_estimate_soc_nondecreasing_witness : estimate_soc 3 ≤ estimate_soc 4 :=
  C2_estimate_soc_nondecreasing 3 4 (by norm_num) (by norm_num) (by norm_num)

/-! ## Internal resistance estimation (`calculate_internal_resistance`) -/

/-- Determinant of the normal matrix of a degree-1 least-squares fit over
`pts` (`(x, y)` points): `n·Σx² − (Σx)²`. -/
def olsDenom (pts : List (ℚ × ℚ)) : ℚ :=
  (pts.length : ℚ) * (pts.map (fun p => p.1 * p.1)).sum
    - (pts.map Prod.fst).sum * (pts.map Prod.fst).sum

/-- Slope component of `np.polyfit(x, y, 1)`: the closed-form ordinary
least-squares slope when the normal matrix is invertible. When it is
singular (all abscissae equal, which `polyfit` only warns about),
`numpy.linalg.lstsq` returns the minimum-norm least-squares solution, whose
slope for common abscissa `a` is `a·ȳ / (a² + 1)`; the claims under
verification depend only on this case being defined, not on its value. -/
def olsSlope (pts : List (ℚ × ℚ)) : ℚ :=
  if olsDenom pts = 0 then
    match pts with
    | [] => 0
    | p :: _ => p.1 * ((pts.map Prod.snd).sum / (pts.length : ℚ)) / (p.1 * p.1 + 1)
  else
    ((pts.length : ℚ) * (pts.map (fun p => p.1 * p.2)).sum
      - (pts.map Prod.fst).sum * (pts.map Prod.snd).sum) / olsDenom pts

/-- The `(current, voltage)` sample pairs that survive the zero-current mask
(`mask = current_data != 0`), current first since it is the regressor. -/
def filteredPairs (voltage_data current_data : List ℚ) : List (ℚ × ℚ) :=
  (current_data.zip voltage_data).filter (fun p => decide (p.1 ≠ 0))

/-- `BatteryHealthProcessor.calculate_internal_resistance`: fewer than 2
samples, or fewer than 2 after the zero-current mask, give `0`; otherwise
fit `V = V_oc − I·R` by least squares and return
`max(0, -slope * 1000)` (milliohms). -/
def calculate_internal_resistance (voltage_data current_data : List ℚ) : ℚ :=
  if voltage_data.length < 2 ∨ current_data.length < 2 then 0
  else if (current_data.filter (fun c => decide (c ≠ 0))).length < 2 then 0
  else rmax 0 (-(olsSlope (filteredPairs voltage_data current_data)) * 1000)

theorem resistance_zero_short (vs cs : List ℚ)
    (h : vs.length < 2 ∨ cs.length < 2) : calculate_internal_resistance vs cs = 0 := by
  rw [calculate_internal_resistance, if_pos h]

theorem resistance_zero_filtered (vs cs : List ℚ)
    (h : (cs.filter (fun c => decide (c ≠ 0))).length < 2) :
    calculate_internal_resistance vs cs = 0 := by
  by_cases h2 : vs.length < 2 ∨ cs.length < 2
  · rw [calculate_internal_resistance, if_pos h2]
  · rw [calculate_internal_resistance, if_neg h2, if_pos h]

theorem resistance_nonneg (vs cs : List ℚ) : 0 ≤ calculate_internal_resistance vs cs := by
  rw [calculate_internal_resistance]
  split_ifs with h1 h2
  · exact le_refl 0
  · exact le_refl 0
  · rw [rmax]
    split_ifs with h3
    · exact h3
    · exact le_refl 0

/-- **C3.** The resistance estimator returns exactly `0` when either input
sequence has fewer than 2 entries, or when fewer than 2 samples survive the
zero-current mask; in particular `currents = [0, 0, 0]` (with any voltage
sequence of equal length) gives `0`. -/
theorem C3_resistance_insufficient_data (vs cs : List ℚ) :
    ((vs.length < 2 ∨ cs.length < 2) → calculate_internal_resistance vs cs = 0) ∧
    ((cs.filter (fun c => decide (c ≠ 0))).length < 2 →
        calculate_internal_resistance vs cs = 0) ∧
    (cs = [0, 0, 0] → vs.length = 3 → calculate_internal_resistance vs cs = 0) := by
  refine ⟨resistance_zero_short vs cs, resistance_zero_filtered vs cs, ?_⟩
  intro hcs _hvs
  subst hcs
  apply resistance_zero_filtered
  simp

/-- Closed-form instances of `C3_resistance_insufficient_data`. -/
theorem C3_resistance_insufficient_data_witness :
    calculate_internal_resistance [4] [1] = 0 ∧
    calculate_internal_resistance [4, 3.9, 3.8] [0, 0, 0] = 0 :=
  ⟨(C3_resistance_insufficient_data [4] [1]).1 (Or.inl (by norm_num)),
   (C3_resistance_insufficient_data [4, 3.9, 3.8] [0, 0, 0]).2.2 rfl (by norm_num)⟩

theorem filteredPairs_length :
    ∀ (vs cs : List ℚ), vs.length = cs.length →
      (filteredPairs vs cs).length = (cs.filter (fun c => decide (c ≠ 0))).length
  | [], [], _ => rfl
  | [], c :: cs, h => by simp at h
  | v :: vs, [], h => by simp at h
  | v :: vs, c :: cs, h => by
    have ih := filteredPairs_length vs cs (by simpa using h)
    simp only [filteredPairs, List.zip_cons_cons, List.filter_cons] at *
    by_cases hc : c = 0
    · subst hc
      simpa using ih
    · simp only [ne_eq, decide_not] at ih ⊢
      simp [hc, ih]

theorem sum_residuals (s b : ℚ) :
    ∀ (pts : List (ℚ × ℚ)),
      (pts.map (fun p => p.2 - (s * p.1 + b))).sum
        = (pts.map Prod.snd).sum - s * (pts.map Prod.fst).sum - (pts.length : ℚ) * b
  | [] => by simp
  | p :: rest => by
    simp only [List.map_cons, List.sum_cons, sum_residuals s b rest, List.length_cons]
    push_cast
    ring

theorem sum_x_residuals (s b : ℚ) :
    ∀ (pts : List (ℚ × ℚ)),
      (pts.map (fun p => p.1 * (p.2 - (s * p.1 + b)))).sum
        = (pts.map (fun p => p.1 * p.2)).sum - s * (pts.map (fun p => p.1 * p.1)).sum
          - b * (pts.map Prod.fst).sum
  | [] => by simp
  | p :: rest => by
    simp only [List.map_cons, List.sum_cons, sum_x_residuals s b rest]
    ring

theorem normal_eq_algebra (n sx sy sxx sxy d : ℚ) (hn : n ≠ 0)
    (hdef : d = n * sxx - sx * sx) (hd : d ≠ 0) :
    sxy - ((n * sxy - sx * sy) / d) * sxx
      - ((sy - ((n * sxy - sx * sy) / d) * sx) / n) * sx = 0 := by
  subst hdef
  field_simp
  ring

/-- If the normal matrix is invertible, the closed-form slope satisfies the
two normal equations of ordinary least squares for a suitable intercept:
it really is the OLS slope of `y` regressed on `x`. -/
theorem olsSlope_normal_equations (pts : List (ℚ × ℚ))
    (hn : (pts.length : ℚ) ≠ 0) (hd : olsDenom pts ≠ 0) :
    ∃ intercept : ℚ,
      (pts.map (fun p => p.2 - (olsSlope pts * p.1 + intercept))).sum = 0 ∧
      (pts.map (fun p => p.1 * (p.2 - (olsSlope pts * p.1 + intercept)))).sum = 0 := by
  have hs : olsSlope pts
      = ((pts.length : ℚ) * (pts.map (fun p => p.1 * p.2)).sum
          - (pts.map Prod.fst).sum * (pts.map Prod.snd).sum) / olsDenom pts := by
    rw [olsSlope.eq_def, if_neg hd]
  refine ⟨((pts.map Prod.snd).sum - olsSlope pts * (pts.map Prod.fst).sum)
      / (pts.length : ℚ), ?_, ?_⟩
  · rw [sum_residuals]
    field_simp
  · rw [sum_x_residuals, hs]
    exact normal_eq_algebra _ _ _ _ _ _ hn rfl hd

theorem filteredPairs_example :
    filteredPairs [4, 3.95, 3.9, 3.85] [0, 1, 2, 3]
      = [(1, 3.95), (2, 3.9), (3, 3.85)] := by
  norm_num [filteredPairs, List.zip, List.filter]

/-- Concrete evaluation: the spec's worked example gives exactly 50 mΩ. -/
theorem resistance_example :
    calculate_internal_resistance [4, 3.95, 3.9, 3.85] [0, 1, 2, 3] = 50 := by
  rw [calculate_internal_resistance, if_neg (by norm_num),
    if_neg (by norm_num [List.filter]), filteredPairs_example]
  norm_num [olsSlope, olsDenom, rmax]

/-- **C4.** With equal-length inputs and at least 2 samples surviving the
zero-current mask (and a non-degenerate regressor), the estimator returns
`max(0, -slope * 1000)` where the slope satisfies the OLS normal equations
of voltage regressed on current over the filtered samples; the result is
never negative; and for `voltages = [4, 3.95, 3.9, 3.85]`,
`currents = [0, 1, 2, 3]` it is strictly positive and under 200. -/
theorem C4_resistance_ols_formula (vs cs : List ℚ)
    (hlen : vs.length = cs.length)
    (h2 : 2 ≤ (cs.filter (fun c => decide (c ≠ 0))).length)
    (hd : olsDenom (filteredPairs vs cs) ≠ 0) :
    (calculate_internal_resistance vs cs
        = rmax 0 (-(olsSlope (filteredPairs vs cs)) * 1000)) ∧
    (∃ intercept : ℚ,
      ((filteredPairs vs cs).map
          (fun p => p.2 - (olsSlope (filteredPairs vs cs) * p.1 + intercept))).sum = 0 ∧
      ((filteredPairs vs cs).map
          (fun p => p.1 * (p.2 - (olsSlope (filteredPairs vs cs) * p.1 + intercept)))).sum
        = 0) ∧
    (∀ (vs' cs' : List ℚ), 0 ≤ calculate_internal_resistance vs' cs') ∧
    (0 < calculate_internal_resistance [4, 3.95, 3.9, 3.85] [0, 1, 2, 3] ∧
      calculate_internal_resistance [4, 3.95, 3.9, 3.85] [0, 1, 2, 3] < 200) := by
  have hflen : 2 ≤ (filteredPairs vs cs).length := by
    rw [filteredPairs_length vs cs hlen]; exact h2
  have hcs2 : 2 ≤ cs.length := le_trans h2 (List.length_filter_le _ _)
  have hnot : ¬ (vs.length < 2 ∨ cs.length < 2) := by
    push_neg
    omega
  refine ⟨?_, ?_, resistance_nonneg, ?_⟩
  · rw [calculate_internal_resistance, if_neg hnot, if_neg (not_lt.mpr h2)]
  · exact olsSlope_normal_equations _ (Nat.cast_ne_zero.mpr (by omega)) hd
  · exact ⟨by rw [resistance_example]; norm_num, by rw [resistance_example]; norm_num⟩

/-- Closed-form instance of `C4_resistance_ols_formula` at the spec's worked
example, with every hypothesis discharged concretely. -/
theorem C4_resistance_ols_formula_witness :
    0 < calculate_internal_resistance [4, 3.95, 3.9, 3.85] [0, 1, 2, 3] ∧
    calculate_internal_resistance [4, 3.95, 3.9, 3.85] [0, 1, 2, 3] < 200 :=
  (C4_resistance_ols_formula [4, 3.95, 3.9, 3.85] [0, 1, 2, 3] (by norm_num)
      (by norm_num [List.filter])
      (by rw [filteredPairs_example]; norm_num [olsDenom])).2.2.2

/-! ## State of health (`estimate_soh`) -/

/-- `np.mean` of a list of rationals. -/
def mean (l : List ℚ) : ℚ := l.sum / (l.length : ℚ)

/-- The `soh_factors` list built by `estimate_soh`: capacity factor if a
capacity is given, resistance factor if a resistance is given (new cell
50 mΩ → 100, aged 150 mΩ → 70, linear in between), and
`max(70, 100 - (cycles/2000)*20)` if `cycles > 0`. -/
def sohFactors (nominal_capacity_ah : ℚ) (current_capacity_ah : Option ℚ)
    (internal_resistance : Option ℚ) (cycles : ℕ) : List ℚ :=
  (match current_capacity_ah with
   | some c => [c / nominal_capacity_ah * 100]
   | none => []) ++
  (match internal_resistance with
   | some r =>
     [if r ≤ 50 then (100 : ℚ)
      else if 150 ≤ r then 70
      else 100 - 30 * (r - 50) / (150 - 50)]
   | none => []) ++
  (if 0 < cycles then [rmax 70 (100 - ((cycles : ℚ) / 2000) * 20)] else [])

/-- `BatteryHealthProcessor.estimate_soh`: `100` when `soh_factors` is empty,
otherwise `np.clip(np.mean(soh_factors), 0, 100)`. -/
def estimate_soh (nominal_capacity_ah : ℚ) (current_capacity_ah : Option ℚ)
    (internal_resistance : Option ℚ) (cycles : ℕ) : ℚ :=
  if sohFactors nominal_capacity_ah current_capacity_ah internal_resistance cycles = [] then 100
  else clip (mean (sohFactors nominal_capacity_ah current_capacity_ah
    internal_resistance cycles)) 0 100

/-- Modelled from the spec's wording of the resistance factor: the two-anchor
linear interpolation between (50 mΩ, 100 %) and (150 mΩ, 70 %). -/
def resistanceFactorSpec (r : ℚ) : ℚ :=
  if r ≤ 50 then 100
  else if 150 ≤ r then 70
  else 100 + (70 - 100) * (r - 50) / (150 - 50)

theorem resFactor_eq (r : ℚ) :
    (if r ≤ 50 then (100 : ℚ) else if 150 ≤ r then 70
      else 100 - 30 * (r - 50) / (150 - 50)) = resistanceFactorSpec r := by
  rw [resistanceFactorSpec]
  split_ifs <;> ring

/-- **C5.** `estimate_soh` returns exactly `100` when no factor is supplied,
and otherwise the arithmetic mean of exactly the supplied factors clamped to
`[0, 100]`; the factor list consists of `capacity/nominal*100` (when a
capacity is given), the two-anchor piecewise-linear resistance factor (when a
resistance is given), and `max(70, 100 - (cycles/2000)*20)` (only when
`cycles > 0`); in particular resistance-only inputs 50, 150 and 100 give
100, 70 and 85. -/
theorem C5_estimate_soh_factors (nominal : ℚ) (cap res : Option ℚ) (cycles : ℕ) :
    (sohFactors nominal cap res cycles = [] →
      estimate_soh nominal cap res cycles = 100) ∧
    (sohFactors nominal cap res cycles ≠ [] →
      estimate_soh nominal cap res cycles
        = clip (mean (sohFactors nominal cap res cycles)) 0 100) ∧
    (sohFactors nominal cap res cycles
        = (cap.toList.map (fun c => c / nominal * 100))
          ++ (res.toList.map resistanceFactorSpec)
          ++ (if 0 < cycles then [rmax 70 (100 - ((cycles : ℚ) / 2000) * 20)] else [])) ∧
    estimate_soh 50 none (some 50) 0 = 100 ∧
    estimate_soh 50 none (some 150) 0 = 70 ∧
    estimate_soh 50 none (some 100) 0 = 85 ∧
    estimate_soh 50 none none 0 = 100 := by
  refine ⟨?_, ?_, ?_, ?_, ?_, ?_, ?_⟩
  · intro h
    rw [estimate_soh, if_pos h]
  · intro h
    rw [estimate_soh, if_neg h]
  · cases cap <;> cases res <;>
      simp [sohFactors, Option.toList, resFactor_eq]
  · norm_num [estimate_soh, sohFactors, mean, clip, rmin, rmax]
  · norm_num [estimate_soh, sohFactors, mean, clip, rmin, rmax]
  · norm_num [estimate_soh, sohFactors, mean, clip, rmin, rmax]
  · norm_num [estimate_soh, sohFactors, mean, clip, rmin, rmax]

/-- Closed-form instance of `C5_estimate_soh_factors` with the non-emptiness
hypothesis discharged at a concrete input. -/
theorem C5_estimate_soh_factors_witness :
    estimate_soh 50 none (some 100) 0
      = clip (mean (sohFactors 50 none (some 100) 0)) 0 100 :=
  (C5_estimate_soh_factors 50 none (some 100) 0).2.1 (by simp [sohFactors])

/-! ## Threshold evaluation (`UploadHandler._check_thresholds`) -/

/-- One per-cell metric record as assembled by `process_measurement_file`
and consumed by `_check_thresholds`. -/
structure CellMetric where
  cell_id : ℤ
  soc_percent : ℚ
  soh_percent : ℚ
  internal_resistance : ℚ
  temperature_c : ℚ
deriving DecidableEq

/-- A threshold mapping: `metric_type ↦ (min_value, max_value)`, as built
from the `HealthThreshold` rows (`t.metric_type: (t.min_value, t.max_value)`). -/
abbrev Thresholds := List (String × Option ℚ × Option ℚ)

/-- The SoH check block: performed only when a `"soh"` entry exists and its
`min_value` is set; requires `soh_percent >= min_val`. -/
def sohCheck (m : CellMetric) (thresholds : Thresholds) : List Bool :=
  match thresholds.lookup "soh" with
  | some (some min_val, _) => [decide (min_val ≤ m.soh_percent)]
  | _ => []

/-- The internal-resistance check block: performed only when a
`"resistance"` entry exists and its `max_value` is set; requires
`internal_resistance <= max_val`. -/
def resistanceCheck (m : CellMetric) (thresholds : Thresholds) : List Bool :=
  match thresholds.lookup "resistance" with
  | some (_, some max_val) => [decide (m.internal_resistance ≤ max_val)]
  | _ => []

/-- The temperature check block: performed only when a `"temperature"` entry
exists and its `max_value` is set; requires `temperature_c <= max_val`. -/
def temperatureCheck (m : CellMetric) (thresholds : Thresholds) : List Bool :=
  match thresholds.lookup "temperature" with
  | some (_, some max_val) => [decide (m.temperature_c ≤ max_val)]
  | _ => []

/-- The `checks` list accumulated by `_check_thresholds`, in source order. -/
def thresholdChecks (m : CellMetric) (thresholds : Thresholds) : List Bool :=
  sohCheck m thresholds ++ resistanceCheck m thresholds ++ temperatureCheck m thresholds

/-- `UploadHandler._check_thresholds`: `all(checks) if checks else True`. -/
def check_thresholds (m : CellMetric) (thresholds : Thresholds) : Bool :=
  if thresholdChecks m thresholds = [] then true
  else (thresholdChecks m thresholds).all id

theorem check_eq_all (m : CellMetric) (thresholds : Thresholds) :
    check_thresholds m thresholds = (thresholdChecks m thresholds).all id := by
  rw [check_thresholds]
  split_ifs with h
  · rw [h]; rfl
  · rfl

theorem sohCheck_iff (m : CellMetric) (t : Thresholds) :
    (sohCheck m t).all id = true ↔
      (∀ min_val max_val, t.lookup "soh" = some (some min_val, max_val) →
        min_val ≤ m.soh_percent) := by
  rw [sohCheck]
  rcases h : t.lookup "soh" with _ | ⟨mn, mx⟩
  · simp
  · rcases mn with _ | mn <;> simp

theorem resistanceCheck_iff (m : CellMetric) (t : Thresholds) :
    (resistanceCheck m t).all id = true ↔
      (∀ min_val max_val, t.lookup "resistance" = some (min_val, some max_val) →
        m.internal_resistance ≤ max_val) := by
  rw [resistanceCheck]
  rcases h : t.lookup "resistance" with _ | ⟨mn, mx⟩
  · simp
  · rcases mx with _ | mx <;> simp

theorem temperatureCheck_iff (m : CellMetric) (t : Thresholds) :
    (temperatureCheck m t).all id = true ↔
      (∀ min_val max_val, t.lookup "temperature" = some (min_val, some max_val) →
        m.temperature_c ≤ max_val) := by
  rw [temperatureCheck]
  rcases h : t.lookup "temperature" with _ | ⟨mn, mx⟩
  · simp
  · rcases mx with _ | mx <;> simp

/-- **C7.** The threshold evaluation returns the logical AND of exactly the
applicable checks — `soh_percent ≥ min_value` when a `"soh"` entry with
`min_value` set exists, resistance `≤ max_value` and temperature
`≤ max_value` likewise — skipping missing entries and unset bounds; with no
applicable check (in particular an empty mapping) every metric passes. -/
theorem C7_threshold_pass_iff (m : CellMetric) (thresholds : Thresholds) :
    (check_thresholds m thresholds = true ↔
      ((∀ min_val max_val, thresholds.lookup "soh" = some (some min_val, max_val) →
          min_val ≤ m.soh_percent) ∧
       (∀ min_val max_val, thresholds.lookup "resistance" = some (min_val, some max_val) →
          m.internal_resistance ≤ max_val) ∧
       (∀ min_val max_val, thresholds.lookup "temperature" = some (min_val, some max_val) →
          m.temperature_c ≤ max_val))) ∧
    check_thresholds m [] = true := by
  constructor
  · rw [check_eq_all, thresholdChecks]
    simp only [List.all_append, Bool.and_eq_true]
    rw [sohCheck_iff, resistanceCheck_iff, temperatureCheck_iff]
    tauto
  · rfl

/-- Closed-form instance of `C7_threshold_pass_iff`: a concrete metric passes
a mapping whose only applicable check it satisfies. -/
theorem C7_threshold_pass_iff_witness :
    check_thresholds ⟨1, 50, 90, 40, 25⟩ [("soh", (some 80, none))] = true :=
  (C7_threshold_pass_iff ⟨1, 50, 90, 40, 25⟩ [("soh", (some 80, none))]).1.mpr
    ⟨by intro mn mx hmn; simp [List.lookup] at hmn; rw [← hmn.1]; norm_num,
     by intro mn mx hmx; simp [List.lookup] at hmx,
     by intro mn mx hmx; simp [List.lookup] at hmx⟩

/-- Exactly the data `_check_thresholds` reads from a threshold mapping: the
`min_value` of the `"soh"` entry, and the `max_value` of the `"resistance"`
and `"temperature"` entries (`none` when the entry is missing or the bound
unset). Every other field of the mapping is never read. -/
def thresholdView (t : Thresholds) : Option ℚ × Option ℚ × Option ℚ :=
  ((match t.lookup "soh" with | some (some min_val, _) => some min_val | _ => none),
   (match t.lookup "resistance" with | some (_, some max_val) => some max_val | _ => none),
   (match t.lookup "temperature" with | some (_, some max_val) => some max_val | _ => none))

theorem sohCheck_view (m : CellMetric) (t : Thresholds) :
    sohCheck m t = (match (thresholdView t).1 with
      | some min_val => [decide (min_val ≤ m.soh_percent)]
      | none => []) := by
  rw [sohCheck, thresholdView]
  rcases h : t.lookup "soh" with _ | ⟨mn, mx⟩
  · rfl
  · rcases mn with _ | mn <;> rfl

theorem resistanceCheck_view (m : CellMetric) (t : Thresholds) :
    resistanceCheck m t = (match (thresholdView t).2.1 with
      | some max_val => [decide (m.internal_resistance ≤ max_val)]
      | none => []) := by
  rw [resistanceCheck, thresholdView]
  rcases h : t.lookup "resistance" with _ | ⟨mn, mx⟩
  · rfl
  · rcases mx with _ | mx <;> rfl

theorem temperatureCheck_view (m : CellMetric) (t : Thresholds) :
    temperatureCheck m t = (match (thresholdView t).2.2 with
      | some max_val => [decide (m.temperature_c ≤ max_val)]
      | none => []) := by
  rw [temperatureCheck, thresholdView]
  rcases h : t.lookup "temperature" with _ | ⟨mn, mx⟩
  · rfl
  · rcases mx with _ | mx <;> rfl

/-- **C10.** The threshold evaluation depends only on the bounds it reads:
two mappings that agree on the `"soh"` `min_value` and the `"resistance"`
and `"temperature"` `max_value`s — and may differ arbitrarily in the `"soh"`
`max_value`, the `"resistance"`/`"temperature"` `min_value`s, and any entry
of another metric type — evaluate every metric identically. -/
theorem C10_threshold_noninterference (m : CellMetric) (t1 t2 : Thresholds)
    (h : thresholdView t1 = thresholdView t2) :
    check_thresholds m t1 = check_thresholds m t2 := by
  rw [check_eq_all, check_eq_all, thresholdChecks, thresholdChecks,
    sohCheck_view, resistanceCheck_view, temperatureCheck_view,
    sohCheck_view m t2, resistanceCheck_view m t2, temperatureCheck_view m t2, h]

/-- Closed-form instance of `C10_threshold_noninterference`: flipping a
`"soh"` `max_value`, a `"resistance"` `min_value`, and inserting an entry of
an unknown metric type leaves the verdict unchanged. -/
theorem C10_threshold_noninterference_witness :
    check_thresholds ⟨1, 50, 90, 40, 25⟩
        [("soh", (some 80, some 99)), ("resistance", (some 1, some 120)),
         ("voltage", (some 3, some 4))]
      = check_thresholds ⟨1, 50, 90, 40, 25⟩
        [("soh", (some 80, none)), ("resistance", (none, some 120))] :=
  C10_threshold_noninterference ⟨1, 50, 90, 40, 25⟩ _ _ (by simp [thresholdView, List.lookup])

/-! ## Per-cell aggregation (`process_measurement_file`) -/

/-- One parsed row of the measurement CSV
(`timestamp, cell_id, voltage_v, current_a, temperature_c`). -/
structure MeasurementSample where
  timestamp : ℤ
  cell_id : ℤ
  voltage_v : ℚ
  current_a : ℚ
  temperature_c : ℚ
deriving DecidableEq

/-- `df['cell_id'].unique()`: the distinct cell ids in order of first
appearance in the input. -/
def uniqueCells : List ℤ → List ℤ
  | [] => []
  | c :: rest => c :: uniqueCells (rest.filter (fun x => decide (x ≠ c)))
termination_by l => l.length
decreasing_by
  simp only [List.length_cons]
  exact Nat.lt_succ_of_le (List.length_filter_le _ _)

/-- Python 3 `round(x, 2)` idealised over `ℚ`: the integer nearest to
`100·x`, ties to even (banker's rounding), divided by 100. -/
def roundHalfEven (q : ℚ) : ℤ :=
  if q - (⌊q⌋ : ℚ) < 1/2 then ⌊q⌋
  else if 1/2 < q - (⌊q⌋ : ℚ) then ⌊q⌋ + 1
  else if ⌊q⌋ % 2 = 0 then ⌊q⌋ else ⌊q⌋ + 1

/-- `round(x, 2)`. -/
def round2 (q : ℚ) : ℚ := ((roundHalfEven (q * 100) : ℚ)) / 100

/-- The per-cell sample series: `df[df['cell_id'] == cell_id]` (input order
preserved) then `.sort_values('timestamp')`. -/
def cellSeries (samples : List MeasurementSample) (cid : ℤ) : List MeasurementSample :=
  List.insertionSort (fun a b => a.timestamp ≤ b.timestamp)
    (samples.filter (fun s => decide (s.cell_id = cid)))

/-- The metric record `process_measurement_file` assembles for one cell:
SoC from the average voltage, resistance from the full per-sample series,
SoH from the resistance factor only (default nominal capacity 50 Ah,
`cycles = 0`), average temperature; everything rounded to 2 decimals. -/
def metricForCell (samples : List MeasurementSample) (cid : ℤ) : CellMetric :=
  let voltages := (cellSeries samples cid).map MeasurementSample.voltage_v
  let currents := (cellSeries samples cid).map MeasurementSample.current_a
  let temperatures := (cellSeries samples cid).map MeasurementSample.temperature_c
  let internal_resistance := calculate_internal_resistance voltages currents
  { cell_id := cid
    soc_percent := round2 (estimate_soc (mean voltages))
    soh_percent := round2 (estimate_soh 50 none (some internal_resistance) 0)
    internal_resistance := round2 internal_resistance
    temperature_c := round2 (mean temperatures) }

/-- `BatteryHealthProcessor.process_measurement_file` on an already-parsed
sample sequence: one metric record per distinct cell id, in first-seen
order. -/
def process_measurement_file (samples : List MeasurementSample) : List CellMetric :=
  (uniqueCells (samples.map MeasurementSample.cell_id)).map (metricForCell samples)

theorem metricForCell_cell_id (samples : List MeasurementSample) (cid : ℤ) :
    (metricForCell samples cid).cell_id = cid := rfl

theorem uniqueCells_mem : ∀ (ids : List ℤ) (x : ℤ), x ∈ uniqueCells ids ↔ x ∈ ids
  | [], x => by simp [uniqueCells]
  | c :: rest, x => by
    simp only [uniqueCells, List.mem_cons]
    constructor
    · rintro (rfl | hx)
      · exact Or.inl rfl
      · have := (uniqueCells_mem (rest.filter (fun y => decide (y ≠ c))) x).mp hx
        exact Or.inr (List.mem_of_mem_filter this)
    · rintro (rfl | hx)
      · exact Or.inl rfl
      · by_cases hxc : x = c
        · exact Or.inl hxc
        · refine Or.inr ((uniqueCells_mem _ x).mpr ?_)
          rw [List.mem_filter]
          exact ⟨hx, by simpa using hxc⟩
termination_by ids _ => ids.length
decreasing_by
  all_goals simp only [List.length_cons]
  all_goals exact Nat.lt_succ_of_le (List.length_filter_le _ _)

theorem uniqueCells_nodup : ∀ (ids : List ℤ), (uniqueCells ids).Nodup
  | [] => by simp [uniqueCells]
  | c :: rest => by
    simp only [uniqueCells, List.nodup_cons]
    refine ⟨?_, uniqueCells_nodup _⟩
    intro hc
    have := (uniqueCells_mem _ c).mp hc
    rw [List.mem_filter] at this
    simpa using this.2
termination_by ids => ids.length
decreasing_by
  all_goals simp only [List.length_cons]
  all_goals exact Nat.lt_succ_of_le (List.length_filter_le _ _)

theorem indexOf_filter_lt :
    ∀ (l : List ℤ) (p : ℤ → Bool) (a b : ℤ), p a = true → p b = true →
      a ∈ l.filter p → b ∈ l.filter p →
      (l.filter p).indexOf a < (l.filter p).indexOf b → l.indexOf a < l.indexOf b
  | [], _, _, _, _, _, ha, _, _ => by simp at ha
  | x :: tl, p, a, b, hpa, hpb, ha, hb, hab => by
    by_cases hpx : p x = true
    · rw [List.filter_cons_of_pos hpx] at ha hb hab
      by_cases hax : a = x
      · subst hax
        have hba : b ≠ a := by
          intro hba
          subst hba
          exact lt_irrefl _ hab
        rw [List.indexOf_cons_self] at *
        rw [List.indexOf_cons_ne _ (Ne.symm hba)]
        exact Nat.succ_pos _
      · rw [List.indexOf_cons_ne _ (by simpa using Ne.symm hax)] at hab ⊢
        by_cases hbx : b = x
        · subst hbx
          rw [List.indexOf_cons_self] at hab
          omega
        · rw [List.indexOf_cons_ne _ (by simpa using Ne.symm hbx)] at hab ⊢
          have ha' : a ∈ tl.filter p := by
            rcases List.mem_cons.mp ha with h | h
            · exact absurd h hax
            · exact h
          have hb' : b ∈ tl.filter p := by
            rcases List.mem_cons.mp hb with h | h
            · exact absurd h hbx
            · exact h
          have := indexOf_filter_lt tl p a b hpa hpb ha' hb' (by omega)
          omega
    · rw [List.filter_cons_of_neg hpx] at ha hb hab
      have hax : a ≠ x := fun h => hpx (h ▸ hpa)
      have hbx : b ≠ x := fun h => hpx (h ▸ hpb)
      rw [List.indexOf_cons_ne _ (Ne.symm hax), List.indexOf_cons_ne _ (Ne.symm hbx)]
      have := indexOf_filter_lt tl p a b hpa hpb ha hb hab
      omega

theorem uniqueCells_pairwise_indexOf :
    ∀ (ids : List ℤ),
      (uniqueCells ids).Pairwise (fun a b => ids.indexOf a < ids.indexOf b)
  | [] => by simp [uniqueCells]
  | c :: rest => by
    simp only [uniqueCells, List.pairwise_cons]
    set f := rest.filter (fun y => decide (y ≠ c)) with hf
    have hmemne : ∀ x ∈ uniqueCells f, x ≠ c ∧ x ∈ rest := by
      intro x hx
      have := (uniqueCells_mem f x).mp hx
      rw [hf, List.mem_filter] at this
      exact ⟨by simpa using this.2, this.1⟩
    constructor
    · intro b hb
      obtain ⟨hbc, hbrest⟩ := hmemne b hb
      rw [List.indexOf_cons_self, List.indexOf_cons_ne _ (Ne.symm hbc)]
      exact Nat.succ_pos _
    · have ih := uniqueCells_pairwise_indexOf f
      refine ih.imp_of_mem ?_
      intro a b ha hb hab
      obtain ⟨hac, harest⟩ := hmemne a ha
      obtain ⟨hbc, hbrest⟩ := hmemne b hb
      rw [List.indexOf_cons_ne _ (Ne.symm hac), List.indexOf_cons_ne _ (Ne.symm hbc)]
      have hamem : a ∈ f := (List.mem_filter).mpr ⟨harest, by simpa using hac⟩
      have hbmem : b ∈ f := (List.mem_filter).mpr ⟨hbrest, by simpa using hbc⟩
      have := indexOf_filter_lt rest (fun y => decide (y ≠ c)) a b
        (by simpa using hac) (by simpa using hbc) (hf ▸ hamem) (hf ▸ hbmem) (hf ▸ hab)
      omega
termination_by ids => ids.length
decreasing_by
  all_goals simp only [List.length_cons]
  all_goals exact Nat.lt_succ_of_le (List.length_filter_le _ _)

theorem process_map_cell_id (samples : List MeasurementSample) :
    (process_measurement_file samples).map CellMetric.cell_id
      = uniqueCells (samples.map MeasurementSample.cell_id) := by
  rw [process_measurement_file, List.map_map]
  simp [Function.comp_def, metricForCell_cell_id]

/-- **C6.** `process` emits exactly one record per distinct `cell_id` (the
emitted ids are duplicate-free and are exactly the ids occurring in the
input), ordered by first appearance in the input (strictly increasing first
occurrence index, not numeric order); and each record carries the group's
metrics: SoC of the average voltage, SoH from only the resistance factor,
the resistance of the full per-sample series, and the average temperature,
each rounded to 2 decimal places. -/
theorem C6_process_per_cell (samples : List MeasurementSample) :
    ((process_measurement_file samples).map CellMetric.cell_id
        = uniqueCells (samples.map MeasurementSample.cell_id)) ∧
    ((process_measurement_file samples).map CellMetric.cell_id).Nodup ∧
    (∀ c : ℤ, c ∈ (process_measurement_file samples).map CellMetric.cell_id ↔
        c ∈ samples.map MeasurementSample.cell_id) ∧
    ((process_measurement_file samples).map CellMetric.cell_id).Pairwise
      (fun a b => (samples.map MeasurementSample.cell_id).indexOf a
        < (samples.map MeasurementSample.cell_id).indexOf b) ∧
    (∀ m ∈ process_measurement_file samples,
      m.soc_percent = round2 (estimate_soc (mean
        ((cellSeries samples m.cell_id).map MeasurementSample.voltage_v))) ∧
      m.soh_percent = round2 (estimate_soh 50 none
        (some (calculate_internal_resistance
          ((cellSeries samples m.cell_id).map MeasurementSample.voltage_v)
          ((cellSeries samples m.cell_id).map MeasurementSample.current_a))) 0) ∧
      m.internal_resistance = round2 (calculate_internal_resistance
        ((cellSeries samples m.cell_id).map MeasurementSample.voltage_v)
        ((cellSeries samples m.cell_id).map MeasurementSample.current_a)) ∧
      m.temperature_c = round2 (mean
        ((cellSeries samples m.cell_id).map MeasurementSample.temperature_c))) := by
  refine ⟨process_map_cell_id samples, ?_, ?_, ?_, ?_⟩
  · rw [process_map_cell_id]
    exact uniqueCells_nodup _
  · intro c
    rw [process_map_cell_id]
    exact uniqueCells_mem _ c
  · rw [process_map_cell_id]
    exact uniqueCells_pairwise_indexOf _
  · intro m hm
    rw [process_measurement_file] at hm
    obtain ⟨c, _, rfl⟩ := List.mem_map.mp hm
    exact ⟨rfl, rfl, rfl, rfl⟩

/-- Closed-form instance of `C6_process_per_cell`, with the record-membership
hypothesis discharged on a concrete one-sample input. -/
theorem C6_process_per_cell_witness :
    (metricForCell [⟨0, 7, 3.7, 1, 25⟩] 7).soc_percent
      = round2 (estimate_soc (mean
        ((cellSeries [⟨0, 7, 3.7, 1, 25⟩]
          ((metricForCell [⟨0, 7, 3.7, 1, 25⟩] 7).cell_id)).map
          MeasurementSample.voltage_v))) :=
  ((C6_process_per_cell [⟨0, 7, 3.7, 1, 25⟩]).2.2.2.2
    (metricForCell [⟨0, 7, 3.7, 1, 25⟩] 7)
    (by simp [process_measurement_file, uniqueCells])).1

/-! ## Raw CSV semantics: `pd.read_csv` type inference and the implicit
numpy failure modes of `process_measurement_file` -/

/-- A raw CSV field destined for a numeric column: either it parses as a
number or it does not (the exact malformed text is irrelevant to control
flow). -/
inductive RawField where
  | num (q : ℚ)
  | str
deriving DecidableEq

/-- Whether a raw field parses as a number. -/
def RawField.isNum : RawField → Bool
  | .num _ => true
  | .str => false

/-- A value of a pandas column after `read_csv` type inference: a float, or
a string (when the whole column failed numeric inference and stayed
`object` dtype). -/
inductive PyVal where
  | pnum (q : ℚ)
  | pstr
deriving DecidableEq

/-- The value a field assumes after column inference: numeric only if the
whole column is numeric (`allNum`), otherwise everything stays a string. -/
def colVal (allNum : Bool) : RawField → PyVal
  | .num q => if allNum then .pnum q else .pstr
  | .str => .pstr

/-- `x != 0` on an object-column value: numbers compare numerically, any
string is `!= 0`. -/
def pyNeZero : PyVal → Bool
  | .pnum q => decide (q ≠ 0)
  | .pstr => true

/-- All-numeric view of a column slice; `none` as soon as a string occurs. -/
def ratsOf : List PyVal → Option (List ℚ)
  | [] => some []
  | .pnum q :: rest => (ratsOf rest).map (fun qs => q :: qs)
  | .pstr :: _ => none

/-- `np.mean` over a column slice: averages numeric values; raises a
`TypeError` when a string enters the reduction. `np.mean` of an empty slice
yields NaN (with a warning) rather than raising; this embedding has no NaN
and folds that case into the error branch — it is unreachable from
`processRaw`, whose groups are always non-empty. -/
def pyMean (l : List PyVal) : Except Unit ℚ :=
  match l, ratsOf l with
  | [], _ => .error ()
  | _, some qs => .ok (mean qs)
  | _, none => .error ()

/-- `calculate_internal_resistance` as executed on pandas column slices:
the two guard clauses never raise; `np.polyfit` raises (`ValueError`) when
any retained sample fails float conversion. -/
def pyResistance (voltage_data current_data : List PyVal) : Except Unit ℚ :=
  if voltage_data.length < 2 ∨ current_data.length < 2 then .ok 0
  else if (current_data.filter pyNeZero).length < 2 then .ok 0
  else
    match ratsOf (((current_data.zip voltage_data).filter
          (fun p => pyNeZero p.1)).map Prod.fst),
        ratsOf (((current_data.zip voltage_data).filter
          (fun p => pyNeZero p.1)).map Prod.snd) with
    | some cs, some vs => .ok (rmax 0 (-(olsSlope (cs.zip vs)) * 1000))
    | _, _ => .error ()

/-- One raw CSV row of a measurement file. The timestamp is taken as
well-formed (the claim concerns voltage, current, temperature and cell id);
`cell_id = none` models a missing cell id, which `read_csv` turns into NaN. -/
structure RawRow where
  timestamp : ℤ
  cell_id : Option ℤ
  voltage_v : RawField
  current_a : RawField
  temperature_c : RawField
deriving DecidableEq

/-- `df[df['cell_id'] == cell_id].sort_values('timestamp')` on raw rows. -/
def groupOf (rows : List RawRow) (cid : ℤ) : List RawRow :=
  List.insertionSort (fun a b => a.timestamp ≤ b.timestamp)
    (rows.filter (fun r => decide (r.cell_id = some cid)))

/-- The per-cell computation of `process_measurement_file` on raw columns:
average voltage (may raise), regress resistance (may raise), estimate SoH,
average temperature (may raise), then round and assemble the record. -/
def cellMetricRaw (rows : List RawRow) (vNum cNum tNum : Bool) (cid : ℤ) :
    Except Unit CellMetric := do
  let avg_v ← pyMean ((groupOf rows cid).map (fun r => colVal vNum r.voltage_v))
  let ir ← pyResistance ((groupOf rows cid).map (fun r => colVal vNum r.voltage_v))
    ((groupOf rows cid).map (fun r => colVal cNum r.current_a))
  let avg_t ← pyMean ((groupOf rows cid).map (fun r => colVal tNum r.temperature_c))
  pure { cell_id := cid
         soc_percent := round2 (estimate_soc avg_v)
         soh_percent := round2 (estimate_soh 50 none (some ir) 0)
         internal_resistance := round2 ir
         temperature_c := round2 avg_t }

/-- Iterate the per-cell computation over the unique cell ids; the first
exception aborts the whole loop (no partial result escapes). -/
def processCellsRaw (rows : List RawRow) (vNum cNum tNum : Bool) :
    List ℤ → Except Unit (List CellMetric)
  | [] => .ok []
  | cid :: more =>
    match cellMetricRaw rows vNum cNum tNum cid,
        processCellsRaw rows vNum cNum tNum more with
    | .ok m, .ok ms => .ok (m :: ms)
    | _, _ => .error ()

/-- `process_measurement_file` on raw CSV rows. A missing cell id puts NaN
into the `cell_id` column; `int(NaN)` raises when its group is reached, so
the whole invocation fails — modelled as an upfront error since exceptions
yield no partial results either way. -/
def processRaw (rows : List RawRow) : Except Unit (List CellMetric) :=
  if rows.any (fun r => r.cell_id.isNone) then .error ()
  else processCellsRaw rows
    (rows.all (fun r => r.voltage_v.isNum))
    (rows.all (fun r => r.current_a.isNum))
    (rows.all (fun r => r.temperature_c.isNum))
    (uniqueCells (rows.filterMap RawRow.cell_id))

theorem colVal_false (f : RawField) : colVal false f = .pstr := by
  cases f <;> rfl

theorem ratsOf_map_pnum : ∀ (l : List ℚ), ratsOf (l.map PyVal.pnum) = some l
  | [] => rfl
  | q :: rest => by
    simp [ratsOf, ratsOf_map_pnum rest]

theorem pyMean_pstr_cons (rest : List PyVal) : pyMean (.pstr :: rest) = .error () := rfl

theorem pyMean_error_of_pstr (l : List PyVal) (hne : l ≠ [])
    (h : ∀ x ∈ l, x = .pstr) : pyMean l = .error () := by
  rcases l with _ | ⟨x, rest⟩
  · exact absurd rfl hne
  · rw [h x (List.mem_cons_self _ _)]
    exact pyMean_pstr_cons rest

theorem ebind_error {β γ : Type} (f : β → Except Unit γ) :
    ((Except.error () : Except Unit β) >>= f) = .error () := rfl

theorem ebind_const_error {β γ : Type} (e : Except Unit β) :
    (e >>= fun _ => (Except.error () : Except Unit γ)) = .error () := by
  rcases e with u | b
  · cases u
    rfl
  · rfl

theorem processCellsRaw_error (rows : List RawRow) (vNum cNum tNum : Bool) :
    ∀ (cids : List ℤ) (cid : ℤ), cid ∈ cids →
      cellMetricRaw rows vNum cNum tNum cid = .error () →
      processCellsRaw rows vNum cNum tNum cids = .error ()
  | [], cid, hmem, _ => by simp at hmem
  | c :: more, cid, hmem, herr => by
    rcases List.mem_cons.mp hmem with rfl | hmem'
    · rw [processCellsRaw, herr]
    · rw [processCellsRaw, processCellsRaw_error rows vNum cNum tNum more cid hmem' herr]
      rcases cellMetricRaw rows vNum cNum tNum c with _ | m <;> rfl

theorem groupOf_mem (rows : List RawRow) (cid : ℤ) (r : RawRow)
    (hr : r ∈ rows) (hcid : r.cell_id = some cid) : r ∈ groupOf rows cid :=
  ((List.perm_insertionSort _ _).mem_iff).mpr
    (List.mem_filter.mpr ⟨hr, by simp [hcid]⟩)

theorem groupOf_length (rows : List RawRow) (cid : ℤ) :
    (groupOf rows cid).length
      = (rows.filter (fun r => decide (r.cell_id = some cid))).length :=
  (List.perm_insertionSort _ _).length_eq

theorem pyResistance_pstr_error (vs cs : List PyVal)
    (hlen : vs.length = cs.length) (h2 : 2 ≤ cs.length) (hps : ∀ x ∈ cs, x = .pstr) :
    pyResistance vs cs = .error () := by
  rw [pyResistance]
  rw [if_neg (by push_neg; omega)]
  have hfilter : cs.filter pyNeZero = cs :=
    List.filter_eq_self.mpr (fun x hx => by rw [hps x hx]; rfl)
  rw [hfilter, if_neg (not_lt.mpr h2)]
  rcases cs with _ | ⟨c0, cs'⟩
  · simp at h2
  rcases vs with _ | ⟨v0, vs'⟩
  · simp at hlen
  have hc0 : c0 = .pstr := hps c0 (List.mem_cons_self _ _)
  subst hc0
  rw [List.zip_cons_cons, List.filter_cons_of_pos (by rfl), List.map_cons]
  rw [show ratsOf (PyVal.pstr :: ((cs'.zip vs').filter
      (fun p => pyNeZero p.1)).map Prod.fst) = none from rfl]

theorem cellMetricRaw_voltage_error (rows : List RawRow) (cNum tNum : Bool) (cid : ℤ)
    (hne : ∃ r ∈ rows, r.cell_id = some cid) :
    cellMetricRaw rows false cNum tNum cid = .error () := by
  obtain ⟨r, hr, hcid⟩ := hne
  have hvs : pyMean ((groupOf rows cid).map (fun s => colVal false s.voltage_v))
      = .error () := by
    apply pyMean_error_of_pstr
    · simp only [ne_eq, List.map_eq_nil_iff]
      exact List.ne_nil_of_mem (groupOf_mem rows cid r hr hcid)
    · intro x hx
      obtain ⟨s, _, rfl⟩ := List.mem_map.mp hx
      exact colVal_false _
  rw [cellMetricRaw, hvs, ebind_error]

theorem cellMetricRaw_temperature_error (rows : List RawRow) (vNum cNum : Bool) (cid : ℤ)
    (hne : ∃ r ∈ rows, r.cell_id = some cid) :
    cellMetricRaw rows vNum cNum false cid = .error () := by
  obtain ⟨r, hr, hcid⟩ := hne
  have hts : pyMean ((groupOf rows cid).map (fun s => colVal false s.temperature_c))
      = .error () := by
    apply pyMean_error_of_pstr
    · simp only [ne_eq, List.map_eq_nil_iff]
      exact List.ne_nil_of_mem (groupOf_mem rows cid r hr hcid)
    · intro x hx
      obtain ⟨s, _, rfl⟩ := List.mem_map.mp hx
      exact colVal_false _
  rw [cellMetricRaw]
  simp only [hts, ebind_error, ebind_const_error]

theorem cellMetricRaw_current_error (rows : List RawRow) (vNum tNum : Bool) (cid : ℤ)
    (hlen : 2 ≤ (rows.filter (fun r => decide (r.cell_id = some cid))).length) :
    cellMetricRaw rows vNum false tNum cid = .error () := by
  have hres : pyResistance ((groupOf rows cid).map (fun s => colVal vNum s.voltage_v))
      ((groupOf rows cid).map (fun s => colVal false s.current_a)) = .error () := by
    apply pyResistance_pstr_error
    · simp
    · rw [List.length_map, groupOf_length]
      exact hlen
    · intro x hx
      obtain ⟨s, _, rfl⟩ := List.mem_map.mp hx
      exact colVal_false _
  rw [cellMetricRaw]
  simp only [hres, ebind_error, ebind_const_error]

theorem ebind_ok {β γ : Type} (b : β) (f : β → Except Unit γ) :
    ((Except.ok b : Except Unit β) >>= f) = f b := rfl

theorem all_false_of_mem {α : Type} (l : List α) (p : α → Bool) (x : α)
    (hx : x ∈ l) (hpx : p x = false) : l.all p = false := by
  rcases h : l.all p with _ | _
  · rfl
  · rw [List.all_eq_true] at h
    rw [h x hx] at hpx
    simp at hpx

theorem roundHalfEven_intCast (n : ℤ) : roundHalfEven ((n : ℚ)) = n := by
  rw [roundHalfEven]
  norm_num

theorem round2_intCast (n : ℤ) : round2 ((n : ℚ)) = ((n : ℚ)) := by
  rw [round2, show ((n : ℚ)) * 100 = (((n * 100 : ℤ) : ℚ)) by push_cast; ring,
    roundHalfEven_intCast]
  push_cast
  ring

/-- **C8 (amended).** A malformed batch fails the whole invocation in these
cases: a missing `cell_id` anywhere; a non-numeric voltage anywhere; a
non-numeric temperature anywhere; and a non-numeric current provided some
cell's group retains at least 2 samples. (The original claim — that *every*
malformed row fails the batch — is refuted by
`C8_parse_failure_counterexample`: a non-numeric current in a batch whose
groups all have fewer than 2 samples is absorbed by the insufficient-data
guard, which returns resistance 0 without inspecting the currents.) -/
theorem C8_parse_failure (rows : List RawRow) :
    ((∃ r ∈ rows, r.cell_id = none) → processRaw rows = .error ()) ∧
    ((∃ r ∈ rows, r.voltage_v = .str) → processRaw rows = .error ()) ∧
    ((∃ r ∈ rows, r.temperature_c = .str) → processRaw rows = .error ()) ∧
    ((∃ r ∈ rows, r.current_a = .str) →
      ∀ cid : ℤ, 2 ≤ (rows.filter (fun r => decide (r.cell_id = some cid))).length →
        processRaw rows = .error ()) := by
  refine ⟨?_, ?_, ?_, ?_⟩
  · rintro ⟨r, hr, hc⟩
    rw [processRaw, if_pos (List.any_eq_true.mpr ⟨r, hr, by rw [hc]; rfl⟩)]
  · rintro ⟨r, hr, hv⟩
    by_cases hnone : rows.any (fun r => r.cell_id.isNone) = true
    · rw [processRaw, if_pos hnone]
    · rcases hcell : r.cell_id with _ | c
      · exact absurd (List.any_eq_true.mpr ⟨r, hr, by rw [hcell]; rfl⟩) hnone
      rw [processRaw, if_neg hnone,
        all_false_of_mem rows (fun r => r.voltage_v.isNum) r hr
          (by show r.voltage_v.isNum = false; rw [hv]; rfl)]
      exact processCellsRaw_error _ _ _ _ _ c
        ((uniqueCells_mem _ c).mpr (List.mem_filterMap.mpr ⟨r, hr, hcell⟩))
        (cellMetricRaw_voltage_error rows _ _ c ⟨r, hr, hcell⟩)
  · rintro ⟨r, hr, ht⟩
    by_cases hnone : rows.any (fun r => r.cell_id.isNone) = true
    · rw [processRaw, if_pos hnone]
    · rcases hcell : r.cell_id with _ | c
      · exact absurd (List.any_eq_true.mpr ⟨r, hr, by rw [hcell]; rfl⟩) hnone
      rw [processRaw, if_neg hnone,
        all_false_of_mem rows (fun r => r.temperature_c.isNum) r hr
          (by show r.temperature_c.isNum = false; rw [ht]; rfl)]
      exact processCellsRaw_error _ _ _ _ _ c
        ((uniqueCells_mem _ c).mpr (List.mem_filterMap.mpr ⟨r, hr, hcell⟩))
        (cellMetricRaw_temperature_error rows _ _ c ⟨r, hr, hcell⟩)
  · rintro ⟨r, hr, hc⟩ cid hlen
    by_cases hnone : rows.any (fun s => s.cell_id.isNone) = true
    · rw [processRaw, if_pos hnone]
    · obtain ⟨r', hr'⟩ := List.exists_mem_of_length_pos (by omega :
        0 < (rows.filter (fun s => decide (s.cell_id = some cid))).length)
      rw [List.mem_filter] at hr'
      have hcid' : r'.cell_id = some cid := of_decide_eq_true hr'.2
      rw [processRaw, if_neg hnone,
        all_false_of_mem rows (fun s => s.current_a.isNum) r hr
          (by show r.current_a.isNum = false; rw [hc]; rfl)]
      exact processCellsRaw_error _ _ _ _ _ cid
        ((uniqueCells_mem _ cid).mpr (List.mem_filterMap.mpr ⟨r', hr'.1, hcid'⟩))
        (cellMetricRaw_current_error rows _ _ cid hlen)

/-- Refutation of C8 as stated: a batch containing a malformed row (its
`current_a` is not numeric) is processed without any error, returning a
full metric record — the row is neither rejected nor dropped; its current
simply never gets inspected because the single-sample guard returns
resistance 0 first. -/
theorem C8_parse_failure_counterexample :
    processRaw [⟨0, some 1, .num 3.7, .str, .num 25⟩]
      = .ok [⟨1, 50, 100, 0, 25⟩] := by
  have hgroup : groupOf [⟨0, some 1, .num 3.7, RawField.str, .num 25⟩] 1
      = [⟨0, some 1, .num 3.7, RawField.str, .num 25⟩] := by
    rw [groupOf]
    simp [List.filter]
  have hmean_v : pyMean [PyVal.pnum 3.7] = .ok (mean [3.7]) := rfl
  have hmean_t : pyMean [PyVal.pnum 25] = .ok (mean [25]) := rfl
  have hres : pyResistance [PyVal.pnum 3.7] [PyVal.pstr] = .ok 0 := rfl
  have hsoc : estimate_soc (mean [(3.7 : ℚ)]) = 50 := by
    rw [show mean [(3.7 : ℚ)] = 3.7 by norm_num [mean]]
    exact soc_at_calibration_point
  have hsoh : estimate_soh 50 none (some 0) 0 = 100 := by
    norm_num [estimate_soh, sohFactors, mean, clip, rmin, rmax]
  have hcell : cellMetricRaw [⟨0, some 1, .num 3.7, RawField.str, .num 25⟩] true false true 1
      = .ok ⟨1, 50, 100, 0, 25⟩ := by
    rw [cellMetricRaw, hgroup]
    simp only [List.map_cons, List.map_nil, colVal, if_pos]
    rw [hmean_v, ebind_ok, hres, ebind_ok, hmean_t, ebind_ok, hsoc, hsoh]
    rw [show (50 : ℚ) = ((50 : ℤ) : ℚ) by norm_num, round2_intCast,
      show (100 : ℚ) = ((100 : ℤ) : ℚ) by norm_num, round2_intCast,
      show (0 : ℚ) = ((0 : ℤ) : ℚ) by norm_num, round2_intCast,
      show mean [(25 : ℚ)] = ((25 : ℤ) : ℚ) by norm_num [mean], round2_intCast]
    norm_num
    rfl
  rw [processRaw, if_neg (by simp [Option.isNone])]
  rw [show List.all [(⟨0, some 1, .num 3.7, RawField.str, .num 25⟩ : RawRow)]
      (fun r => r.voltage_v.isNum) = true from rfl]
  rw [show List.all [(⟨0, some 1, .num 3.7, RawField.str, .num 25⟩ : RawRow)]
      (fun r => r.current_a.isNum) = false from rfl]
  rw [show List.all [(⟨0, some 1, .num 3.7, RawField.str, .num 25⟩ : RawRow)]
      (fun r => r.temperature_c.isNum) = true from rfl]
  rw [show List.filterMap RawRow.cell_id
      [(⟨0, some 1, .num 3.7, RawField.str, .num 25⟩ : RawRow)] = [1] from rfl]
  rw [show uniqueCells [1] = [1] by simp [uniqueCells]]
  rw [processCellsRaw, hcell, processCellsRaw]

/-- Closed-form instance of `C8_parse_failure` (amended claim) with its
hypothesis discharged: a batch with a non-numeric voltage fails whole. -/
theorem C8_parse_failure_witness :
    processRaw [⟨0, some 1, RawField.str, .num 1, .num 25⟩] = .error () :=
  (C8_parse_failure [⟨0, some 1, RawField.str, .num 1, .num 25⟩]).2.1
    ⟨⟨0, some 1, RawField.str, .num 1, .num 25⟩, List.mem_cons_self _ _, rfl⟩

theorem filter_pyNeZero_map_pnum :
    ∀ (cs : List ℚ),
      (cs.map PyVal.pnum).filter pyNeZero
        = (cs.filter (fun c => decide (c ≠ 0))).map PyVal.pnum
  | [] => rfl
  | c :: cs' => by
    simp only [List.map_cons, List.filter_cons]
    rw [show pyNeZero (PyVal.pnum c) = decide (c ≠ 0) from rfl]
    by_cases hc : c = 0
    · subst hc
      simp [filter_pyNeZero_map_pnum cs']
    · simp [hc, filter_pyNeZero_map_pnum cs']

theorem zip_filter_map_pnum :
    ∀ (cs vs : List ℚ),
      ((cs.map PyVal.pnum).zip (vs.map PyVal.pnum)).filter (fun p => pyNeZero p.1)
        = (filteredPairs vs cs).map (fun p => (PyVal.pnum p.1, PyVal.pnum p.2))
  | [], vs => by simp [filteredPairs]
  | c :: cs', [] => by simp [filteredPairs]
  | c :: cs', v :: vs' => by
    have ih := zip_filter_map_pnum cs' vs'
    rw [filteredPairs] at ih
    simp only [List.map_cons, List.zip_cons_cons, List.filter_cons, filteredPairs]
    rw [show pyNeZero ((PyVal.pnum c, PyVal.pnum v)).1 = decide (c ≠ 0) from rfl]
    by_cases hc : c = 0
    · subst hc
      simp [ih]
    · simp [hc, ih]

theorem ratsOf_map_pnum_comp {α : Type} (f : α → ℚ) :
    ∀ (l : List α), ratsOf (l.map (fun x => PyVal.pnum (f x))) = some (l.map f)
  | [] => rfl
  | x :: rest => by simp [ratsOf, ratsOf_map_pnum_comp f rest]

theorem zip_fst_snd : ∀ (l : List (ℚ × ℚ)), (l.map Prod.fst).zip (l.map Prod.snd) = l
  | [] => rfl
  | p :: rest => by simp [zip_fst_snd rest]

/-- On fully numeric columns the Python-semantics resistance computation
never raises and agrees with the exact rational function. -/
theorem pyResistance_numeric (vs cs : List ℚ) :
    pyResistance (vs.map PyVal.pnum) (cs.map PyVal.pnum)
      = .ok (calculate_internal_resistance vs cs) := by
  rw [pyResistance, calculate_internal_resistance, filter_pyNeZero_map_pnum,
    zip_filter_map_pnum]
  simp only [List.length_map, List.map_map, Function.comp_def]
  split_ifs with h1 h2
  · rfl
  · rfl
  · rw [ratsOf_map_pnum_comp Prod.fst, ratsOf_map_pnum_comp Prod.snd]
    simp [zip_fst_snd]

theorem sum_fst_const (a : ℚ) :
    ∀ (pts : List (ℚ × ℚ)), (∀ x ∈ pts, x.1 = a) →
      (pts.map Prod.fst).sum = (pts.length : ℚ) * a
  | [], _ => by simp
  | p :: rest, h => by
    have hp : p.1 = a := h p (List.mem_cons_self _ _)
    have ih := sum_fst_const a rest (fun x hx => h x (List.mem_cons_of_mem _ hx))
    simp only [List.map_cons, List.sum_cons, hp, ih, List.length_cons]
    push_cast
    ring

theorem sum_fst_sq_const (a : ℚ) :
    ∀ (pts : List (ℚ × ℚ)), (∀ x ∈ pts, x.1 = a) →
      (pts.map (fun p => p.1 * p.1)).sum = (pts.length : ℚ) * (a * a)
  | [], _ => by simp
  | p :: rest, h => by
    have hp : p.1 = a := h p (List.mem_cons_self _ _)
    have ih := sum_fst_sq_const a rest (fun x hx => h x (List.mem_cons_of_mem _ hx))
    simp only [List.map_cons, List.sum_cons, hp, ih, List.length_cons]
    push_cast
    ring

/-- Zero variance in the regressor: when every filtered current equals the
same value the normal matrix is singular, so the estimator takes the
defined minimum-norm fallback rather than the regular OLS formula. -/
theorem olsDenom_const (a : ℚ) (pts : List (ℚ × ℚ))
    (h : ∀ x ∈ pts, x.1 = a) : olsDenom pts = 0 := by
  rw [olsDenom, sum_fst_const a pts h, sum_fst_sq_const a pts h]
  ring

/-- **C9.** Numeric edge cases never raise: on well-formed numeric input the
Python-semantics resistance computation returns `ok` and agrees with the
exact rational function (so empty arrays and zero current variance are
absorbed); empty inputs give 0; and constant currents make the normal
matrix singular, exercising the defined degenerate branch of the fit. The
downstream SoH and clamping steps are total functions of the result by
construction. -/
theorem C9_resistance_edge_cases (vs cs : List ℚ) :
    pyResistance (vs.map PyVal.pnum) (cs.map PyVal.pnum)
      = .ok (calculate_internal_resistance vs cs) ∧
    calculate_internal_resistance [] [] = 0 ∧
    (∀ (pts : List (ℚ × ℚ)) (a : ℚ), (∀ x ∈ pts, x.1 = a) → olsDenom pts = 0) :=
  ⟨pyResistance_numeric vs cs,
   resistance_zero_short [] [] (Or.inl (by norm_num)),
   fun pts a h => olsDenom_const a pts h⟩

/-- Closed-form instance of `C9_resistance_edge_cases` with the
constant-current hypothesis discharged concretely. -/
theorem C9_resistance_edge_cases_witness :
    olsDenom [(2, 3.9), (2, 3.85)] = 0 :=
  (C9_resistance_edge_cases [] []).2.2 [(2, 3.9), (2, 3.85)] 2
    (by intro x hx; fin_cases hx <;> norm_num)

end BatteryHealth
